import Mathlib

/-!
Verification of the crowd-aware evacuation guidance system: a shallow
embedding of the server (authoritative state and broadcast handlers) and of
the client path planner (hazard-weighted Dijkstra search over a grid), with
theorems about routing correctness, the cost model, and the synchronization
protocol.

Coordinates are integers as in the JavaScript source; costs are naturals
(every JavaScript cost value arising in the planner is a non-negative
integer, and the floating-point square root enters only through
`Math.floor((4.5 - d) * 10)`, which is reproduced exactly by integer
arithmetic in `fireSurcharge` and proved equal to the real-valued formula
below).
-/

namespace Evac

/-- A grid cell; integer coordinates as used by the client code. -/
abbrev Cell := ℤ × ℤ

/-- A fire (hazard) location tagged with the floor it belongs to,
mirroring the `{x, y, floor}` objects of the source. -/
structure Fire where
  x : ℤ
  y : ℤ
  floor : ℕ
deriving DecidableEq, Repr

/-- Occupant role, from the client role selector
(any value other than the firefighter string behaves as a civilian). -/
inductive Role
  | civilian
  | firefighter
deriving DecidableEq, Repr

/-- Firefighter intent: go to the fire (rescue) or head for the exits
(evacuate); the `ffAction` field of the source. -/
inductive FFAction
  | evacuate
  | rescue
deriving DecidableEq, Repr

/-- The client state read by the planner: active floor geometry
(bounds, walls, exits), the active floor number, and the synced fire list. -/
structure Env where
  width : ℕ
  height : ℕ
  walls : List Cell
  exits : List Cell
  currentFloor : ℕ
  fires : List Fire
deriving DecidableEq, Repr

/-- `isWall`: membership test on the wall list,
mirroring `this.walls.some(w => w.x === x && w.y === y)`. -/
def isWall (env : Env) (x y : ℤ) : Bool :=
  env.walls.any (fun w => w.1 == x && w.2 == y)

/-- Integer ceiling of the square root. -/
def ceilSqrt (n : ℕ) : ℕ :=
  if Nat.sqrt n * Nat.sqrt n = n then Nat.sqrt n else Nat.sqrt n + 1

/-- Hazard surcharge of one fire at `(fx, fy)` for a candidate cell `(x, y)`:
the source computes `Math.floor((4.5 - dist) * 10)` when the Euclidean
distance `dist` is below `4`, which over integer coordinates equals
`45 - ceilSqrt (100 * d2)` with `d2` the squared distance (proved below). -/
def fireSurcharge (fx fy x y : ℤ) : ℕ :=
  let d2 : ℕ := ((x - fx) ^ 2 + (y - fy) ^ 2).toNat
  if d2 < 16 then 45 - ceilSqrt (100 * d2) else 0

/-- Whether the occupant avoids fire, mirroring
`(role !== 'firefighter') || (role === 'firefighter' && ffAction === 'evacuate')`. -/
def shouldAvoidFire (role : Role) (a : FFAction) : Bool :=
  (role != Role.firefighter) || (role == Role.firefighter && a == FFAction.evacuate)

/-- The planner cost of stepping onto cell `(x, y)`: `none` encodes the
source's `Infinity` for walls; otherwise base cost `1` plus, for
fire-avoiding occupants, the surcharge of every same-floor fire. -/
def getCost (env : Env) (role : Role) (a : FFAction) (x y : ℤ) : Option ℕ :=
  if isWall env x y then none
  else if env.fires.isEmpty || !shouldAvoidFire role a then some 1
  else some (env.fires.foldl
    (fun c f => if f.floor == env.currentFloor then c + fireSurcharge f.x f.y x y else c) 1)

/-- A search node. The source keeps a linked parent pointer per node; here
`trail` is the forward list of ancestor cells from the start (the parent
chain read off in reverse), so that the reconstruction loop
`while (curr) path.unshift(...)` becomes `trail ++ [(x, y)]`. -/
structure Node where
  x : ℤ
  y : ℤ
  cost : ℕ
  trail : List Cell
deriving DecidableEq, Repr

/-- The cell a node stands on. -/
def nodeCell (n : Node) : Cell := (n.x, n.y)

/-- Stable insertion by cost: the new node goes after all nodes of equal or
smaller cost, reproducing the stable `openSet.sort((a, b) => a.cost - b.cost)`. -/
def insertByCost (n : Node) : List Node → List Node
  | [] => [n]
  | m :: l => if n.cost < m.cost then n :: m :: l else m :: insertByCost n l

/-- Stable sort by cost (insertion sort; the source's `Array.sort` with a
numeric comparator is stable, and a stable sort by cost is unique). -/
def sortByCost (l : List Node) : List Node :=
  l.foldl (fun acc n => insertByCost n acc) []

/-- The four neighbor offsets, in the source's order
`[[0, 1], [0, -1], [1, 0], [-1, 0]]`. -/
def dirs : List (ℤ × ℤ) := [(0, 1), (0, -1), (1, 0), (-1, 0)]

/-- Lookup in the visited map (the source's `Map` keyed by the cell). -/
def vlookup (m : List (Cell × ℕ)) (c : Cell) : Option ℕ :=
  match m with
  | [] => none
  | p :: l => if p.1 = c then some p.2 else vlookup l c

/-- `Map.set`: overwrite the entry in place if the key is present,
otherwise append it (insertion order preserved, as for a JavaScript Map). -/
def vset (m : List (Cell × ℕ)) (c : Cell) (v : ℕ) : List (Cell × ℕ) :=
  if (vlookup m c).isSome then m.map (fun p => if p.1 = c then (c, v) else p)
  else m ++ [(c, v)]

/-- Expansion of a popped node: each in-bounds, non-wall neighbor that is
unvisited or visited at a strictly larger cost is pushed, in `dirs` order,
with the accumulated cost and the extended trail. -/
def pushNeighbors (env : Env) (role : Role) (a : FFAction)
    (visited : List (Cell × ℕ)) (curr : Node) : List Node :=
  dirs.filterMap fun d =>
    let nx := curr.x + d.1
    let ny := curr.y + d.2
    if 0 ≤ nx ∧ nx < (env.width : ℤ) ∧ 0 ≤ ny ∧ ny < (env.height : ℤ) then
      (getCost env role a nx ny).bind fun stepCost =>
        if (vlookup visited (nx, ny)).all (fun v => curr.cost + stepCost < v) then
          some ⟨nx, ny, curr.cost + stepCost, curr.trail ++ [(curr.x, curr.y)]⟩
        else none
    else none

/-- One-while-loop Dijkstra search with lazy stale-entry suppression,
mirroring the source loop body exactly: sort the open set by cost, shift the
head, skip it when already finalized at or below its cost, otherwise record
it as visited, stop if it is a target, else push its neighbors. `fuel`
bounds the number of iterations; `searchFuel` below is provably more than
the loop can ever execute, so the fueled function agrees with the
unbounded source loop. -/
def dijkstra (env : Env) (role : Role) (a : FFAction) (targets : List Cell) :
    ℕ → List Node → List (Cell × ℕ) → Option Node
  | 0, _, _ => none
  | fuel + 1, openSet, visited =>
    match sortByCost openSet with
    | [] => none
    | curr :: rest =>
      let skip : Bool :=
        match vlookup visited (nodeCell curr) with
        | some v => decide (v ≤ curr.cost)
        | none => false
      if skip then dijkstra env role a targets fuel rest visited
      else
        let visited' := vset visited (nodeCell curr) curr.cost
        if nodeCell curr ∈ targets then some curr
        else dijkstra env role a targets fuel
          (rest ++ pushNeighbors env role a visited' curr) visited'

/-- The goal set of the search: fires on the active floor for a rescuing
firefighter (falling back to the exits when there is none), else the exits. -/
def goalSet (env : Env) (role : Role) (a : FFAction) : List Cell :=
  if role = Role.firefighter ∧ a = FFAction.rescue then
    let t := (env.fires.filter (fun f => f.floor == env.currentFloor)).map
      (fun f => (f.x, f.y))
    if t.isEmpty then env.exits else t
  else env.exits

/-- Fuel that strictly dominates the loop's iteration count (proved below):
each iteration either consumes an open-set entry or finalizes a fresh cell,
and at most `width * height + 1` cells can ever be finalized. -/
def searchFuel (env : Env) : ℕ := 5 * (env.width * env.height + 1) + 2

/-- The planner: weighted search from the occupant's cell to the goal set,
returning the reconstructed route (start to goal inclusive), or `[]` when no
goal was reached. -/
def findPath (env : Env) (role : Role) (a : FFAction) (sx sy : ℤ) : List Cell :=
  match dijkstra env role a (goalSet env role a) (searchFuel env)
      [⟨sx, sy, 0, []⟩] [] with
  | none => []
  | some n => n.trail ++ [(n.x, n.y)]

/-! ## Route predicates

The specification-level notions the claims quantify over: a route is a list
of cells starting at the occupant's cell, moving by unit steps, with every
cell after the first inside the grid and passable, ending in the goal set;
its cost is the sum of the destination-cell costs of its steps. -/

/-- Four-adjacency via the source's direction list. -/
def Adjacent (c u : Cell) : Prop := ∃ d ∈ dirs, u = (c.1 + d.1, c.2 + d.2)

/-- In-bounds test matching the source's `0 <= nx < width`, `0 <= ny < height`. -/
def InBounds (env : Env) (u : Cell) : Prop :=
  0 ≤ u.1 ∧ u.1 < (env.width : ℤ) ∧ 0 ≤ u.2 ∧ u.2 < (env.height : ℤ)

/-- The step list `l` is walkable from cell `c`: each step moves to an
adjacent, in-bounds, passable (non-wall) cell. -/
def stepsOk (env : Env) (role : Role) (a : FFAction) : Cell → List Cell → Prop
  | _, [] => True
  | c, u :: l => Adjacent c u ∧ InBounds env u ∧
      (getCost env role a u.1 u.2).isSome = true ∧ stepsOk env role a u l

/-- Total cost of a step list: sum of destination-cell costs. -/
def tailCost (env : Env) (role : Role) (a : FFAction) (l : List Cell) : ℕ :=
  (l.map (fun u => (getCost env role a u.1 u.2).getD 0)).sum

/-- The last cell of the nonempty list `c :: l`. -/
def lastOf : Cell → List Cell → Cell
  | c, [] => c
  | _, u :: l => lastOf u l

/-- Total cost of a route: destination-cell costs of each step, the start
cell's cost excluded. -/
def routeCost (env : Env) (role : Role) (a : FFAction) (p : List Cell) : ℕ :=
  tailCost env role a p.tail

/-- `p` is a path from `start` to some cell of `targets`: it begins at
`start`, every later cell is reached by a unit step and is in-bounds and
passable, and the last cell is a target. -/
def IsRouteTo (env : Env) (role : Role) (a : FFAction)
    (start : Cell) (targets : List Cell) (p : List Cell) : Prop :=
  ∃ l g, p = start :: l ∧ stepsOk env role a start l ∧
    (start :: l).getLast? = some g ∧ g ∈ targets

/-- The full forward path recorded by a node: its trail plus the node's cell. -/
def nodePath (n : Node) : List Cell := n.trail ++ [nodeCell n]

/-- Chain property of a search node: its recorded path starts at the
occupant's cell, walks by unit steps over in-bounds passable cells, and its
accumulated cost equals the node's cost. -/
def ChainOk (env : Env) (role : Role) (a : FFAction) (start : Cell) (n : Node) : Prop :=
  ∃ l, nodePath n = start :: l ∧ stepsOk env role a start l ∧
    tailCost env role a l = n.cost

/-- Loop invariant of the search, patterned after the standard Dijkstra
argument: every open node carries a genuine path of matching cost; visited
labels never exceed open costs; every in-bounds passable neighbor of a
visited cell is either visited or represented in the open set within the
relaxed cost; no goal cell is ever visited while the loop runs; the start is
visited at label zero unless the state is the initial one; and the visited
keys are distinct cells of the grid (or the start). -/
structure SearchInv (env : Env) (role : Role) (a : FFAction) (targets : List Cell)
    (start : Cell) (openSet : List Node) (visited : List (Cell × ℕ)) : Prop where
  chains : ∀ n ∈ openSet, ChainOk env role a start n
  visLe : ∀ c v, vlookup visited c = some v → ∀ n ∈ openSet, v ≤ n.cost
  frontier : ∀ c v, vlookup visited c = some v → ∀ d ∈ dirs,
    InBounds env (c.1 + d.1, c.2 + d.2) →
    ∀ s, getCost env role a (c.1 + d.1) (c.2 + d.2) = some s →
    (∃ v', vlookup visited (c.1 + d.1, c.2 + d.2) = some v' ∧ v' ≤ v + s) ∨
    (∃ n ∈ openSet, nodeCell n = (c.1 + d.1, c.2 + d.2) ∧ n.cost ≤ v + s)
  noGoalVis : ∀ g ∈ targets, vlookup visited g = none
  startVis : (visited = [] ∧ openSet = [⟨start.1, start.2, 0, []⟩]) ∨
    vlookup visited start = some 0
  keysNodup : (visited.map Prod.fst).Nodup
  keysDom : ∀ p ∈ visited, InBounds env p.1 ∨ p.1 = start

/-- Termination measure of the loop: five potential units per not-yet
finalized cell plus one per open entry. Skipping drops one open entry;
finalizing consumes five units and adds at most four entries. -/
def searchMeasure (env : Env) (openSet : List Node)
    (visited : List (Cell × ℕ)) : ℕ :=
  5 * (env.width * env.height + 1 - visited.length) + openSet.length

/-! ## Authoritative node (server)

The server keeps the occupant and hazard registries and, after every
accepted mutation, broadcasts a full snapshot of both to every connected
socket. Socket identifiers are modeled as an opaque countable type. -/

/-- Connection identifiers (`socket.id`), modeled opaquely. -/
abbrev SocketId := ℕ

/-- A stored occupant entry, mirroring the object literal the server builds:
`{ id: socket.id, x: data.x, y: data.y, floor: data.floor || 1 }`.
The reported role is not part of it. -/
structure SUser where
  id : SocketId
  x : ℤ
  y : ℤ
  floor : ℕ
deriving DecidableEq, Repr

/-- The position report payload as sent by the role-aware client:
`{ x, y, floor, role }` (floor and role may be absent). -/
structure UpdatePayload where
  x : ℤ
  y : ℤ
  floor : Option ℕ
  role : Option Role
deriving DecidableEq, Repr

/-- The hazard toggle payload `{ x, y, floor }`. -/
structure TogglePayload where
  x : ℤ
  y : ℤ
  floor : Option ℕ
deriving DecidableEq, Repr

/-- The hazard clear payload `{ floor }`. -/
structure ClearPayload where
  floor : Option ℕ
deriving DecidableEq, Repr

/-- JavaScript `data.floor || 1`: an absent (or zero, hence falsy) floor
defaults to `1`. -/
def floorOrOne : Option ℕ → ℕ
  | none => 1
  | some 0 => 1
  | some (n + 1) => n + 1

/-- The authoritative in-memory state: `users` (an object keyed by socket
id, kept in insertion order) and `fireLocations`. -/
structure ServerState where
  users : List (SocketId × SUser)
  fireLocations : List Fire
deriving DecidableEq, Repr

/-- Object key assignment `users[socket.id] = v`: overwrite in place when
the key is present, else append (JavaScript objects preserve string-key
insertion order). -/
def objSet (m : List (SocketId × SUser)) (k : SocketId) (v : SUser) :
    List (SocketId × SUser) :=
  if m.any (fun p => p.1 == k) then m.map (fun p => if p.1 == k then (k, v) else p)
  else m ++ [(k, v)]

/-- The `updateUser` handler: store `{ id, x: data.x, y: data.y,
floor: data.floor || 1 }` under the sender's id. `data.role` is not read. -/
def handleUpdateUser (s : ServerState) (sid : SocketId) (d : UpdatePayload) :
    ServerState :=
  { s with users := objSet s.users sid ⟨sid, d.x, d.y, floorOrOne d.floor⟩ }

/-- The `toggleFire` handler: remove the matching hazard if one exists at
that cell and floor, else append it. -/
def handleToggleFire (s : ServerState) (d : TogglePayload) : ServerState :=
  let fl := floorOrOne d.floor
  match s.fireLocations.findIdx? (fun f => f.x == d.x && f.y == d.y && f.floor == fl) with
  | some i => { s with fireLocations := s.fireLocations.eraseIdx i }
  | none => { s with fireLocations := s.fireLocations ++ [⟨d.x, d.y, fl⟩] }

/-- The `clearFire` handler: keep only hazards on other floors. -/
def handleClearFire (s : ServerState) (d : ClearPayload) : ServerState :=
  { s with fireLocations :=
      s.fireLocations.filter (fun f => f.floor != floorOrOne d.floor) }

/-- The `disconnect` handler: delete the departing connection's occupant. -/
def handleDisconnect (s : ServerState) (sid : SocketId) : ServerState :=
  { s with users := s.users.filter (fun p => p.1 != sid) }

/-- A full snapshot: `{ users: Object.values(users), fireLocations }`. -/
structure Snapshot where
  users : List SUser
  fireLocations : List Fire
deriving DecidableEq, Repr

/-- The snapshot of the current state. -/
def snapshotOf (s : ServerState) : Snapshot :=
  ⟨s.users.map (fun p => p.2), s.fireLocations⟩

/-- The mutation events the authoritative node accepts. -/
inductive ServerEvent
  | updateUser (sid : SocketId) (d : UpdatePayload)
  | toggleFire (sid : SocketId) (d : TogglePayload)
  | clearFire (sid : SocketId) (d : ClearPayload)
  | disconnect (sid : SocketId)
deriving DecidableEq, Repr

/-- One accepted mutation: apply the handler, then `io.emit` the full
post-state snapshot to every connected socket (for a disconnection, the
departing socket is removed from both registries and the connection list
before the broadcast). Returns the new state, the new connection list, and
the sent messages. -/
def serverStep (conns : List SocketId) (s : ServerState) (e : ServerEvent) :
    ServerState × List SocketId × List (SocketId × Snapshot) :=
  match e with
  | .updateUser sid d =>
    let s' := handleUpdateUser s sid d
    (s', conns, conns.map (fun c => (c, snapshotOf s')))
  | .toggleFire _ d =>
    let s' := handleToggleFire s d
    (s', conns, conns.map (fun c => (c, snapshotOf s')))
  | .clearFire _ d =>
    let s' := handleClearFire s d
    (s', conns, conns.map (fun c => (c, snapshotOf s')))
  | .disconnect sid =>
    let s' := handleDisconnect s sid
    let conns' := conns.filter (fun c => c != sid)
    (s', conns', conns'.map (fun c => (c, snapshotOf s')))

/-! ## Client-side recomputation (`recalculate`) -/

/-- A client-held occupant record (as merged from a snapshot: an entry may
lack role and intent, and carries a locally computed path). -/
structure CUser where
  id : SocketId
  x : ℤ
  y : ℤ
  floor : ℕ
  role : Option Role
  ffAction : Option FFAction
  path : List Cell
deriving DecidableEq, Repr

/-- `user.ffAction || (user.role === 'firefighter' ? 'rescue' : 'evacuate')`. -/
def actionOf (u : CUser) : FFAction :=
  u.ffAction.getD
    (if u.role = some Role.firefighter then FFAction.rescue else FFAction.evacuate)

/-- The planner query `recalculate` issues for one occupant: it passes the
client's active geometry, active floor and fire list (`env`); an absent
role defaults to civilian. The occupant's own `floor` field is not
consulted. -/
def recalcPath (env : Env) (u : CUser) : List Cell :=
  findPath env (u.role.getD Role.civilian) (actionOf u) u.x u.y

/-- `recalculate`: recompute the path of every known occupant against the
active floor's geometry. -/
def recalculate (env : Env) (users : List CUser) : List CUser :=
  users.map (fun u => { u with path := recalcPath env u })

/-! ## Sample environments used by witnesses and counterexamples -/

/-- A 3 by 3 open grid with a single exit. -/
def env3 : Env :=
  { width := 3, height := 3, walls := [], exits := [(2, 1)],
    currentFloor := 1, fires := [] }

/-- A 3 by 3 grid whose cell `(1, 1)` is a wall. -/
def env3w : Env :=
  { width := 3, height := 3, walls := [(1, 1)], exits := [(2, 1)],
    currentFloor := 1, fires := [] }

/-- A 4 by 4 grid whose entire border is walls, like every generated floor. -/
def env4border : Env :=
  { width := 4, height := 4,
    walls := [(0, 0), (1, 0), (2, 0), (3, 0), (0, 3), (1, 3), (2, 3), (3, 3),
      (0, 1), (0, 2), (3, 1), (3, 2)],
    exits := [(2, 2)], currentFloor := 1, fires := [] }

/-- A 4 by 4 grid in which the cell `(1, 1)` is fenced off by walls. -/
def env4sealed : Env :=
  { width := 4, height := 4, walls := [(0, 1), (1, 0), (1, 2), (2, 1)],
    exits := [(3, 3)], currentFloor := 1, fires := [] }

/-- A 4 by 3 open grid, the active (floor 1) geometry of the
floor-confusion scenario. -/
def env43A : Env :=
  { width := 4, height := 3, walls := [], exits := [(3, 1)],
    currentFloor := 1, fires := [] }

/-- The floor 2 geometry of the floor-confusion scenario: the straight
corridor cell `(2, 1)` is a wall there. -/
def env43B : Env :=
  { width := 4, height := 3, walls := [(2, 1)], exits := [(3, 1)],
    currentFloor := 2, fires := [] }

/-! ## Registry and broadcast theorems -/

/-- C4 (code bug): the claim says an upsert carrying a role stores that
role, but the `updateUser` handler builds the stored entry from
`data.x`, `data.y`, `data.floor` only, so the stored registry state is
entirely independent of the reported role (first conjunct), and a concrete
upsert carrying the firefighter role stores a bare
`{ id, x, y, floor }` entry (second conjunct). -/
theorem C4_role_dropped_on_upsert :
    (∀ (s : ServerState) (sid : SocketId) (x y : ℤ) (fl : Option ℕ)
        (r₁ r₂ : Option Role),
      handleUpdateUser s sid ⟨x, y, fl, r₁⟩ = handleUpdateUser s sid ⟨x, y, fl, r₂⟩) ∧
    handleUpdateUser ⟨[], []⟩ 1 ⟨3, 4, some 2, some Role.firefighter⟩ =
      ⟨[(1, ⟨1, 3, 4, 2⟩)], []⟩ :=
  ⟨fun _ _ _ _ _ _ _ => rfl, by decide⟩

/-- C5 (code bug): the claim says an occupant is always routed against its
own floor's geometry, but `recalculate` passes the active floor's walls,
exits and fire list to `findPath` for every occupant, never reading the
occupant's `floor` field: the computed path is invariant under that field
(first conjunct), and a concrete occupant on floor `2` is routed straight
through the cell `(2, 1)` of the active floor 1 geometry even though that
cell is a wall on its own floor, whose geometry would give a different
route (remaining conjuncts). -/
theorem C5_routed_against_active_floor :
    (∀ (env : Env) (u : CUser) (f₁ f₂ : ℕ),
      recalcPath env { u with floor := f₁ } = recalcPath env { u with floor := f₂ }) ∧
    (recalculate env43A [⟨7, 1, 1, 2, none, none, []⟩]).map (fun u => u.path) =
      [[(1, 1), (2, 1), (3, 1)]] ∧
    isWall env43B 2 1 = true ∧
    findPath env43B Role.civilian FFAction.evacuate 1 1 ≠ [(1, 1), (2, 1), (3, 1)] :=
  ⟨fun _ _ _ _ => rfl, by decide, by decide, by decide⟩

/-- C6: every accepted mutation (upsert, hazard toggle, hazard clear,
disconnect removal) sends the full post-state snapshot to exactly the
connected observers; for the three report events the connection list is
unchanged, so the originating observer receives it too; a disconnection
removes the departing connection's occupant before the broadcast, so the
snapshot omits it. -/
theorem C6_snapshot_broadcast_after_mutation
    (conns : List SocketId) (s : ServerState) (e : ServerEvent)
    (hid : ∀ p ∈ s.users, p.2.id = p.1) :
    ((serverStep conns s e).2.2 =
      (serverStep conns s e).2.1.map
        (fun c => (c, snapshotOf (serverStep conns s e).1))) ∧
    (∀ sid d, e = ServerEvent.updateUser sid d → (serverStep conns s e).2.1 = conns) ∧
    (∀ sid d, e = ServerEvent.toggleFire sid d → (serverStep conns s e).2.1 = conns) ∧
    (∀ sid d, e = ServerEvent.clearFire sid d → (serverStep conns s e).2.1 = conns) ∧
    (∀ sid, e = ServerEvent.disconnect sid →
      (∀ p ∈ (serverStep conns s e).1.users, p.1 ≠ sid) ∧
      (∀ u ∈ (snapshotOf (serverStep conns s e).1).users, u.id ≠ sid)) := by
  refine ⟨?_, ?_, ?_, ?_, ?_⟩
  · cases e <;> rfl
  · intro sid d he; cases he; rfl
  · intro sid d he; cases he; rfl
  · intro sid d he; cases he; rfl
  · intro sid he
    cases he
    constructor
    · intro p hp
      simp only [serverStep, handleDisconnect, List.mem_filter] at hp
      simpa using hp.2
    · intro u hu
      simp only [serverStep, handleDisconnect, snapshotOf, List.mem_map,
        List.mem_filter] at hu
      obtain ⟨p, ⟨hmem, hne⟩, rfl⟩ := hu
      rw [hid p hmem]
      simpa using hne

/-- Witness for C6 at a concrete state: a disconnect of socket `1` with two
stored occupants broadcasts to the remaining socket a snapshot that omits
occupant `1`. -/
theorem C6_snapshot_broadcast_after_mutation_witness :
    ((serverStep [1, 2] ⟨[(1, ⟨1, 0, 0, 1⟩), (2, ⟨2, 5, 5, 1⟩)], []⟩
        (ServerEvent.disconnect 1)).2.2 =
      (serverStep [1, 2] ⟨[(1, ⟨1, 0, 0, 1⟩), (2, ⟨2, 5, 5, 1⟩)], []⟩
        (ServerEvent.disconnect 1)).2.1.map
        (fun c => (c, snapshotOf (serverStep [1, 2]
          ⟨[(1, ⟨1, 0, 0, 1⟩), (2, ⟨2, 5, 5, 1⟩)], []⟩
          (ServerEvent.disconnect 1)).1))) ∧
    (∀ u ∈ (snapshotOf (serverStep [1, 2]
        ⟨[(1, ⟨1, 0, 0, 1⟩), (2, ⟨2, 5, 5, 1⟩)], []⟩
        (ServerEvent.disconnect 1)).1).users, u.id ≠ 1) := by
  have h := C6_snapshot_broadcast_after_mutation [1, 2]
    ⟨[(1, ⟨1, 0, 0, 1⟩), (2, ⟨2, 5, 5, 1⟩)], []⟩
    (ServerEvent.disconnect 1) (by decide)
  exact ⟨h.1, (h.2.2.2.2 1 rfl).2⟩

/-- C8: clearing floor `f` removes exactly the hazards on floor `f`
(membership in the new registry is membership in the old one off floor
`f`), and leaves the occupant registry untouched. The `f ≠ 0` hypothesis
reflects that `0` is not a JavaScript-reachable floor number (a zero floor
in a payload is falsy and is coerced to `1` by `data.floor || 1`). -/
theorem C8_clearFloor_exact (s : ServerState) (f : ℕ) (hf : f ≠ 0) :
    (∀ h ∈ (handleClearFire s ⟨some f⟩).fireLocations, h.floor ≠ f) ∧
    (∀ h, h ∈ (handleClearFire s ⟨some f⟩).fireLocations ↔
      h ∈ s.fireLocations ∧ h.floor ≠ f) ∧
    (handleClearFire s ⟨some f⟩).users = s.users := by
  obtain ⟨⟩ | f := f
  · exact absurd rfl hf
  · refine ⟨?_, ?_, rfl⟩
    · intro h hh
      simp only [handleClearFire, floorOrOne, List.mem_filter, bne_iff_ne] at hh
      exact hh.2
    · intro h
      simp only [handleClearFire, floorOrOne, List.mem_filter, bne_iff_ne]

/-- Witness for C8: clearing floor `2` from a registry holding hazards on
floors `1` and `2` keeps exactly the floor 1 hazard and the occupants. -/
theorem C8_clearFloor_exact_witness :
    (∀ h ∈ (handleClearFire ⟨[(1, ⟨1, 0, 0, 1⟩)], [⟨1, 1, 1⟩, ⟨2, 2, 2⟩]⟩
        ⟨some 2⟩).fireLocations, h.floor ≠ 2) ∧
    (∀ h, h ∈ (handleClearFire ⟨[(1, ⟨1, 0, 0, 1⟩)], [⟨1, 1, 1⟩, ⟨2, 2, 2⟩]⟩
        ⟨some 2⟩).fireLocations ↔
      h ∈ [Fire.mk 1 1 1, Fire.mk 2 2 2] ∧ h.floor ≠ 2) ∧
    (handleClearFire ⟨[(1, ⟨1, 0, 0, 1⟩)], [⟨1, 1, 1⟩, ⟨2, 2, 2⟩]⟩
        ⟨some 2⟩).users = [(1, ⟨1, 0, 0, 1⟩)] :=
  C8_clearFloor_exact ⟨[(1, ⟨1, 0, 0, 1⟩)], [⟨1, 1, 1⟩, ⟨2, 2, 2⟩]⟩ 2 (by decide)

/-! ## The cost function and the real-valued hazard formula -/

theorem ceilSqrt_le_of_le {m k : ℕ} (h : m ≤ k * k) : ceilSqrt m ≤ k := by
  have hs : Nat.sqrt m ≤ k := by
    have := Nat.sqrt_le_sqrt h
    rwa [Nat.sqrt_eq k] at this
  unfold ceilSqrt
  split
  · exact hs
  · rename_i hne
    rcases Nat.lt_or_ge (Nat.sqrt m) k with hlt | hge
    · omega
    · exfalso
      have hk : Nat.sqrt m = k := le_antisymm hs hge
      have h1 : Nat.sqrt m * Nat.sqrt m ≤ m := by
        have := Nat.sqrt_le' m
        rwa [pow_two] at this
      rw [hk] at h1 hne
      omega

theorem intCeil_real_sqrt (m : ℕ) : ⌈Real.sqrt m⌉ = (ceilSqrt m : ℤ) := by
  have h1 : (Nat.sqrt m : ℕ) ^ 2 ≤ m := Nat.sqrt_le' m
  have h2 : m < (Nat.sqrt m + 1) ^ 2 := Nat.lt_succ_sqrt' m
  unfold ceilSqrt
  split
  · rename_i heq
    have hcast : ((Nat.sqrt m : ℕ) : ℝ) * ((Nat.sqrt m : ℕ) : ℝ) = (m : ℝ) := by
      exact_mod_cast heq
    have : (m : ℝ) = ((Nat.sqrt m : ℕ) : ℝ) ^ 2 := by rw [pow_two]; linarith
    rw [this, Real.sqrt_sq (by positivity)]
    exact_mod_cast Int.ceil_natCast (Nat.sqrt m)
  · rename_i hne
    have hlt : ((Nat.sqrt m : ℕ) : ℝ) < Real.sqrt m := by
      apply (Real.lt_sqrt (by positivity)).mpr
      have : Nat.sqrt m ^ 2 < m := by
        rcases Nat.lt_or_ge (Nat.sqrt m ^ 2) m with h | h
        · exact h
        · exfalso; apply hne; nlinarith [le_antisymm h1 h]
      exact_mod_cast this
    have hle : Real.sqrt m ≤ ((Nat.sqrt m : ℕ) : ℝ) + 1 := by
      apply le_of_lt
      apply (Real.sqrt_lt' (by positivity)).mpr
      exact_mod_cast h2
    have hlo : ((Nat.sqrt m : ℤ)) < ⌈Real.sqrt m⌉ := Int.lt_ceil.mpr (by exact_mod_cast hlt)
    have hhi : ⌈Real.sqrt m⌉ ≤ (Nat.sqrt m : ℤ) + 1 := Int.ceil_le.mpr (by push_cast; exact_mod_cast hle)
    push_cast
    omega

theorem intFloor_sub_sqrt (m : ℕ) :
    ⌊(45 : ℝ) - Real.sqrt m⌋ = 45 - (ceilSqrt m : ℤ) := by
  have : (45 : ℝ) - Real.sqrt m = -(Real.sqrt m) + ((45 : ℤ) : ℝ) := by
    ring
  rw [this, Int.floor_add_int, Int.floor_neg, intCeil_real_sqrt]
  omega

/-- The one-fire surcharge of the source equals the specification's
real-valued formula. -/
theorem fireSurcharge_eq_floor (fx fy x y : ℤ) :
    (fireSurcharge fx fy x y : ℤ) =
      (if Real.sqrt (((x - fx) ^ 2 + (y - fy) ^ 2 : ℤ) : ℝ) < 4 then
        ⌊(4.5 - Real.sqrt (((x - fx) ^ 2 + (y - fy) ^ 2 : ℤ) : ℝ)) * 10⌋
      else 0) := by
  have hz : (0 : ℤ) ≤ (x - fx) ^ 2 + (y - fy) ^ 2 := by positivity
  set d2z : ℤ := (x - fx) ^ 2 + (y - fy) ^ 2 with hd2z
  set d2 : ℕ := d2z.toNat with hd2
  have hcast : (d2 : ℤ) = d2z := Int.toNat_of_nonneg hz
  have hcastR : ((d2 : ℕ) : ℝ) = ((d2z : ℤ) : ℝ) := by exact_mod_cast hcast
  have hiff : Real.sqrt ((d2z : ℤ) : ℝ) < 4 ↔ d2 < 16 := by
    rw [← hcastR]
    constructor
    · intro h
      have := (Real.sqrt_lt' (by norm_num : (0:ℝ) < 4)).mp h
      have : (d2 : ℝ) < 16 := by nlinarith [this]
      exact_mod_cast this
    · intro h
      apply (Real.sqrt_lt' (by norm_num : (0:ℝ) < 4)).mpr
      have : (d2 : ℝ) < 16 := by exact_mod_cast h
      nlinarith [this]
  unfold fireSurcharge
  simp only [← hd2z, ← hd2]
  by_cases hlt : d2 < 16
  · rw [if_pos hlt, if_pos (hiff.mpr hlt)]
    have hsq : Real.sqrt ((d2z : ℤ) : ℝ) = Real.sqrt (100 * (d2 : ℝ)) / 10 := by
      rw [← hcastR, show (100 : ℝ) * (d2 : ℝ) = 10 ^ 2 * (d2 : ℝ) by norm_num,
        Real.sqrt_mul (by positivity), Real.sqrt_sq (by norm_num)]
      ring
    have hfloor : (4.5 - Real.sqrt ((d2z : ℤ) : ℝ)) * 10 =
        (45 : ℝ) - Real.sqrt (100 * (d2 : ℝ)) := by
      rw [hsq]; ring
    rw [hfloor]
    have hkey := intFloor_sub_sqrt (100 * d2)
    rw [show ((100 * d2 : ℕ) : ℝ) = 100 * ((d2 : ℕ) : ℝ) by push_cast; ring] at hkey
    rw [hkey]
    have hle45 : ceilSqrt (100 * d2) ≤ 45 := by
      apply ceilSqrt_le_of_le
      omega
    omega
  · rw [if_neg hlt, if_neg (fun h => hlt (hiff.mp h))]
    simp

/-- The fold the source's fire loop performs, as base plus the sum of the
same-floor surcharges. -/
theorem foldl_surcharge (fires : List Fire) (fl : ℕ) (x y : ℤ) (init : ℕ) :
    fires.foldl (fun c f => if f.floor == fl then c + fireSurcharge f.x f.y x y else c)
      init =
    init + ((fires.filter (fun f => f.floor == fl)).map
      (fun f => fireSurcharge f.x f.y x y)).sum := by
  induction fires generalizing init with
  | nil => simp
  | cons f fires ih =>
    by_cases h : f.floor = fl
    · simp only [List.foldl_cons, List.filter_cons, h, beq_self_eq_true, if_pos,
        List.map_cons, List.sum_cons]
      rw [ih]
      omega
    · have hb : (f.floor == fl) = false := by simpa using h
      simp only [List.foldl_cons, List.filter_cons, hb, if_false, Bool.false_eq_true]
      rw [ih]

/-- C3: the cost of a candidate cell is `none` (infinity) on a wall;
exactly `1` for a rescue-intent firefighter; and otherwise `1` plus the
sum, over the same-floor fires at Euclidean distance below `4`, of
`floor((4.5 - d) * 10)`, uncapped — the specification's real-valued
formula, proved of the source's integer computation. -/
theorem C3_cost_formula (env : Env) (role : Role) (a : FFAction) (x y : ℤ) :
    Option.map (Nat.cast : ℕ → ℤ) (getCost env role a x y) =
      (if isWall env x y = true then none
       else if role = Role.firefighter ∧ a = FFAction.rescue then some 1
       else some (1 + ((env.fires.filter (fun f => f.floor == env.currentFloor)).map
          (fun f =>
            if Real.sqrt (((x - f.x) ^ 2 + (y - f.y) ^ 2 : ℤ) : ℝ) < 4 then
              ⌊(4.5 - Real.sqrt (((x - f.x) ^ 2 + (y - f.y) ^ 2 : ℤ) : ℝ)) * 10⌋
            else 0)).sum)) := by
  unfold getCost
  by_cases hw : isWall env x y
  · simp [hw]
  · simp only [hw, Bool.false_eq_true, if_false]
    have havoid : shouldAvoidFire role a =
        !(decide (role = Role.firefighter ∧ a = FFAction.rescue)) := by
      cases role <;> cases a <;> rfl
    by_cases hra : role = Role.firefighter ∧ a = FFAction.rescue
    · obtain ⟨rfl, rfl⟩ := hra
      simp [shouldAvoidFire]
    · have hav : shouldAvoidFire role a = true := by rw [havoid]; simp [hra]
      simp only [hav, Bool.not_true, Bool.or_false, hra, if_false]
      by_cases hemp : env.fires.isEmpty
      · have : env.fires = [] := by simpa [List.isEmpty_iff] using hemp
        simp [this]
      · have hb : env.fires.isEmpty = false := by simpa using hemp
        simp only [hb, Bool.false_eq_true, if_false, Option.map_some]
        rw [foldl_surcharge env.fires env.currentFloor x y 1, Option.map_some']
        congr 1
        rw [Nat.cast_add, Nat.cast_one, Nat.cast_list_sum, List.map_map]
        congr 1
        congr 1
        apply List.map_congr_left
        intro f _
        show (fireSurcharge f.x f.y x y : ℤ) = _
        exact fireSurcharge_eq_floor f.x f.y x y

/-! ## The stable sort of the open set -/

theorem insertByCost_perm (n : Node) (l : List Node) :
    (insertByCost n l).Perm (n :: l) := by
  induction l with
  | nil => simp [insertByCost]
  | cons m l ih =>
    unfold insertByCost
    split
    · exact List.Perm.refl _
    · exact (ih.cons m).trans (List.Perm.swap n m l)

theorem sortByCost_perm (l : List Node) : (sortByCost l).Perm l := by
  suffices h : ∀ (l acc : List Node),
      (l.foldl (fun acc n => insertByCost n acc) acc).Perm (acc ++ l) by
    simpa using h l []
  intro l
  induction l with
  | nil => simp
  | cons n l ih =>
    intro acc
    simp only [List.foldl_cons]
    refine (ih (insertByCost n acc)).trans ?_
    refine ((insertByCost_perm n acc).append_right l).trans ?_
    simpa using List.perm_middle.symm

theorem insertByCost_sorted (n : Node) (l : List Node)
    (h : l.Pairwise (fun m k => m.cost ≤ k.cost)) :
    (insertByCost n l).Pairwise (fun m k => m.cost ≤ k.cost) := by
  induction l with
  | nil => simp [insertByCost]
  | cons m l ih =>
    rw [List.pairwise_cons] at h
    unfold insertByCost
    split
    · rename_i hlt
      rw [List.pairwise_cons]
      refine ⟨?_, List.pairwise_cons.mpr h⟩
      intro b hb
      rcases List.mem_cons.mp hb with rfl | hb
      · exact le_of_lt hlt
      · exact le_trans (le_of_lt hlt) (h.1 b hb)
    · rename_i hge
      rw [List.pairwise_cons]
      refine ⟨?_, ih h.2⟩
      intro b hb
      have := (insertByCost_perm n l).subset hb
      rcases List.mem_cons.mp this with rfl | hb'
      · omega
      · exact h.1 b hb'

theorem sortByCost_sorted (l : List Node) :
    (sortByCost l).Pairwise (fun m k => m.cost ≤ k.cost) := by
  suffices h : ∀ (l acc : List Node), acc.Pairwise (fun m k => m.cost ≤ k.cost) →
      (l.foldl (fun acc n => insertByCost n acc) acc).Pairwise
        (fun m k => m.cost ≤ k.cost) by
    exact h l [] (by simp)
  intro l
  induction l with
  | nil => intro acc h; simpa using h
  | cons n l ih => intro acc h; exact ih _ (insertByCost_sorted n acc h)

theorem sortByCost_snoc (l : List Node) (n : Node) :
    sortByCost (l ++ [n]) = insertByCost n (sortByCost l) := by
  unfold sortByCost
  rw [List.foldl_append]
  rfl

theorem sortByCost_head_min (l : List Node) (n : Node) (rest : List Node)
    (h : sortByCost l = n :: rest) : ∀ m ∈ l, n.cost ≤ m.cost := by
  intro m hm
  have hperm := sortByCost_perm l
  rw [h] at hperm
  have hm' : m ∈ n :: rest := hperm.symm.subset hm
  rcases List.mem_cons.mp hm' with rfl | hm'
  · exact le_refl _
  · have hs := sortByCost_sorted l
    rw [h, List.pairwise_cons] at hs
    exact hs.1 m hm'

theorem sortByCost_head_stable : ∀ (l : List Node) (n : Node) (rest : List Node),
    sortByCost l = n :: rest →
    ∃ l₁ l₂, l = l₁ ++ n :: l₂ ∧ ∀ m ∈ l₁, n.cost < m.cost := by
  intro l
  induction l using List.reverseRecOn with
  | nil => intro n rest h; simp [sortByCost] at h
  | append_singleton l m ih =>
    intro n rest h
    rw [sortByCost_snoc] at h
    cases hs : sortByCost l with
    | nil =>
      have hl : l = [] := by
        have hperm := sortByCost_perm l
        rw [hs] at hperm
        exact hperm.symm.eq_nil
      subst hl
      rw [hs] at h
      unfold insertByCost at h
      injection h with h1 h2
      exact ⟨[], [], by simp [h1], by simp⟩
    | cons h0 t0 =>
      rw [hs] at h
      unfold insertByCost at h
      split at h
      · rename_i hlt
        injection h with h1 h2
        subst h1
        refine ⟨l, [], rfl, ?_⟩
        intro k hk
        have hmin : h0.cost ≤ k.cost := sortByCost_head_min l h0 t0 hs k hk
        omega
      · rename_i hge
        injection h with h1 h2
        obtain ⟨l₁, l₂, hdecomp, hl₁⟩ := ih h0 t0 hs
        subst h1
        exact ⟨l₁, l₂ ++ [m], by rw [hdecomp]; simp, hl₁⟩

/-- C7: the planner is a pure function of its inputs, so identical inputs
give identical routes definitionally (first conjunct); and the extraction
step of the search (stable sort by cost, then shift the head) always
finalizes, among the minimal-cost open entries, the one discovered first:
the head of the sorted open set splits the open set into strictly more
expensive earlier entries and the remainder (second conjunct). -/
theorem C7_deterministic_tiebreak :
    (∀ (env : Env) (role : Role) (a : FFAction) (sx sy : ℤ),
      findPath env role a sx sy = findPath env role a sx sy) ∧
    (∀ (l : List Node) (n : Node) (rest : List Node),
      sortByCost l = n :: rest →
      (∀ m ∈ l, n.cost ≤ m.cost) ∧
      ∃ l₁ l₂, l = l₁ ++ n :: l₂ ∧ ∀ m ∈ l₁, n.cost < m.cost) :=
  ⟨fun _ _ _ _ _ => rfl,
   fun l n rest h => ⟨sortByCost_head_min l n rest h, sortByCost_head_stable l n rest h⟩⟩

/-- Witness for C7 at concrete inputs: among two equal-cost entries the one
discovered (pushed) first becomes the head of the sorted open set. -/
theorem C7_deterministic_tiebreak_witness :
    (findPath env3 Role.civilian FFAction.evacuate 1 1 =
      findPath env3 Role.civilian FFAction.evacuate 1 1) ∧
    ((∀ m ∈ [(⟨0, 0, 5, []⟩ : Node), ⟨1, 0, 3, []⟩, ⟨2, 0, 3, []⟩],
        (⟨1, 0, 3, []⟩ : Node).cost ≤ m.cost) ∧
      ∃ l₁ l₂, [(⟨0, 0, 5, []⟩ : Node), ⟨1, 0, 3, []⟩, ⟨2, 0, 3, []⟩] =
          l₁ ++ (⟨1, 0, 3, []⟩ : Node) :: l₂ ∧
        ∀ m ∈ l₁, (⟨1, 0, 3, []⟩ : Node).cost < m.cost) :=
  ⟨C7_deterministic_tiebreak.1 env3 Role.civilian FFAction.evacuate 1 1,
   C7_deterministic_tiebreak.2 [⟨0, 0, 5, []⟩, ⟨1, 0, 3, []⟩, ⟨2, 0, 3, []⟩]
     ⟨1, 0, 3, []⟩ [⟨2, 0, 3, []⟩, ⟨0, 0, 5, []⟩] (by decide)⟩

/-! ## Search loop: step equations and basic lemmas -/

theorem dijkstra_stop (env : Env) (role : Role) (a : FFAction) (targets : List Cell)
    (fuel : ℕ) (openSet : List Node) (visited : List (Cell × ℕ))
    (hs : sortByCost openSet = []) :
    dijkstra env role a targets (fuel + 1) openSet visited = none := by
  unfold dijkstra
  rw [hs]

theorem dijkstra_skip (env : Env) (role : Role) (a : FFAction) (targets : List Cell)
    (fuel : ℕ) (openSet : List Node) (visited : List (Cell × ℕ))
    (curr : Node) (rest : List Node) (v : ℕ)
    (hs : sortByCost openSet = curr :: rest)
    (hv : vlookup visited (nodeCell curr) = some v) (hle : v ≤ curr.cost) :
    dijkstra env role a targets (fuel + 1) openSet visited =
      dijkstra env role a targets fuel rest visited := by
  conv_lhs => unfold dijkstra
  rw [hs]
  simp [hv, hle]

theorem dijkstra_found (env : Env) (role : Role) (a : FFAction) (targets : List Cell)
    (fuel : ℕ) (openSet : List Node) (visited : List (Cell × ℕ))
    (curr : Node) (rest : List Node)
    (hs : sortByCost openSet = curr :: rest)
    (hv : vlookup visited (nodeCell curr) = none)
    (ht : nodeCell curr ∈ targets) :
    dijkstra env role a targets (fuel + 1) openSet visited = some curr := by
  conv_lhs => unfold dijkstra
  rw [hs]
  simp [hv, ht]

theorem dijkstra_visit (env : Env) (role : Role) (a : FFAction) (targets : List Cell)
    (fuel : ℕ) (openSet : List Node) (visited : List (Cell × ℕ))
    (curr : Node) (rest : List Node)
    (hs : sortByCost openSet = curr :: rest)
    (hv : vlookup visited (nodeCell curr) = none)
    (ht : nodeCell curr ∉ targets) :
    dijkstra env role a targets (fuel + 1) openSet visited =
      dijkstra env role a targets fuel
        (rest ++ pushNeighbors env role a (vset visited (nodeCell curr) curr.cost) curr)
        (vset visited (nodeCell curr) curr.cost) := by
  conv_lhs => unfold dijkstra
  rw [hs]
  simp [hv, ht]

theorem vlookup_nil (c : Cell) : vlookup [] c = none := rfl

theorem vlookup_cons (p : Cell × ℕ) (l : List (Cell × ℕ)) (c : Cell) :
    vlookup (p :: l) c = if p.1 = c then some p.2 else vlookup l c := rfl

theorem vset_fresh (m : List (Cell × ℕ)) (c : Cell) (v : ℕ)
    (h : vlookup m c = none) : vset m c v = m ++ [(c, v)] := by
  simp [vset, h]

theorem vlookup_append_notfound (m tail : List (Cell × ℕ)) (c : Cell)
    (h : vlookup m c = none) : vlookup (m ++ tail) c = vlookup tail c := by
  induction m with
  | nil => simp
  | cons p l ih =>
    rw [vlookup_cons] at h
    split at h
    · exact absurd h (by simp)
    · rename_i hne
      rw [List.cons_append, vlookup_cons, if_neg hne]
      exact ih h

theorem vlookup_snoc_self (m : List (Cell × ℕ)) (c : Cell) (v : ℕ)
    (h : vlookup m c = none) : vlookup (m ++ [(c, v)]) c = some v := by
  rw [vlookup_append_notfound m _ c h, vlookup_cons, if_pos rfl]

theorem vlookup_snoc_ne (m : List (Cell × ℕ)) (c c' : Cell) (v : ℕ)
    (hne : c ≠ c') : vlookup (m ++ [(c, v)]) c' = vlookup m c' := by
  induction m with
  | nil => simp [vlookup_cons, hne]
  | cons p l ih =>
    rw [List.cons_append, vlookup_cons, vlookup_cons]
    split
    · rfl
    · exact ih

theorem vlookup_none_keys (m : List (Cell × ℕ)) (c : Cell)
    (h : vlookup m c = none) : ∀ p ∈ m, p.1 ≠ c := by
  induction m with
  | nil => simp
  | cons p l ih =>
    rw [vlookup_cons] at h
    split at h
    · exact absurd h (by simp)
    · rename_i hne
      intro q hq
      rcases List.mem_cons.mp hq with rfl | hq
      · exact hne
      · exact ih h q hq

/-! ## Last cells, step lists, chain costs -/

theorem lastOf_cons (c u : Cell) (l : List Cell) :
    lastOf c (u :: l) = lastOf u l := rfl

theorem lastOf_snoc (c u : Cell) (l : List Cell) : lastOf c (l ++ [u]) = u := by
  induction l generalizing c with
  | nil => rfl
  | cons w l ih => rw [List.cons_append, lastOf_cons]; exact ih w

theorem getLast?_eq_lastOf (c : Cell) (l : List Cell) :
    (c :: l).getLast? = some (lastOf c l) := by
  induction l generalizing c with
  | nil => rfl
  | cons u l ih => rw [List.getLast?_cons_cons, ih u, lastOf_cons]

theorem lastOf_mem (c u : Cell) (l : List Cell) : lastOf c (u :: l) ∈ u :: l := by
  induction l generalizing c u with
  | nil => simp [lastOf]
  | cons w l ih =>
    rw [lastOf_cons]
    exact List.mem_cons_of_mem u (ih u w)

theorem stepsOk_snoc (env : Env) (role : Role) (a : FFAction)
    (c u : Cell) (l : List Cell) :
    stepsOk env role a c (l ++ [u]) ↔
      stepsOk env role a c l ∧ Adjacent (lastOf c l) u ∧ InBounds env u ∧
        (getCost env role a u.1 u.2).isSome = true := by
  induction l generalizing c with
  | nil => simp [stepsOk, lastOf]
  | cons w l ih =>
    rw [List.cons_append]
    show (Adjacent c w ∧ _ ∧ _ ∧ stepsOk env role a w (l ++ [u])) ↔ _
    rw [ih w, lastOf_cons]
    show _ ↔ ((Adjacent c w ∧ _ ∧ _ ∧ stepsOk env role a w l) ∧ _ ∧ _ ∧ _)
    tauto

theorem stepsOk_mem (env : Env) (role : Role) (a : FFAction)
    (c : Cell) (l : List Cell) (h : stepsOk env role a c l) :
    ∀ u ∈ l, InBounds env u ∧ (getCost env role a u.1 u.2).isSome = true := by
  induction l generalizing c with
  | nil => simp
  | cons w l ih =>
    obtain ⟨_, hinb, hcost, hrest⟩ := h
    intro u hu
    rcases List.mem_cons.mp hu with rfl | hu
    · exact ⟨hinb, hcost⟩
    · exact ih w hrest u hu

theorem tailCost_cons (env : Env) (role : Role) (a : FFAction) (u : Cell)
    (l : List Cell) :
    tailCost env role a (u :: l) =
      (getCost env role a u.1 u.2).getD 0 + tailCost env role a l := by
  simp [tailCost]

theorem tailCost_snoc (env : Env) (role : Role) (a : FFAction) (l : List Cell)
    (u : Cell) :
    tailCost env role a (l ++ [u]) =
      tailCost env role a l + (getCost env role a u.1 u.2).getD 0 := by
  simp [tailCost]

theorem chainOk_root (env : Env) (role : Role) (a : FFAction) (sx sy : ℤ) :
    ChainOk env role a (sx, sy) ⟨sx, sy, 0, []⟩ :=
  ⟨[], by simp [nodePath, nodeCell], trivial, rfl⟩

theorem chainOk_last (start : Cell) (n : Node) (l : List Cell)
    (h : nodePath n = start :: l) : lastOf start l = nodeCell n := by
  have h1 : (start :: l).getLast? = some (nodeCell n) := by
    rw [← h]
    unfold nodePath
    simp
  rw [getLast?_eq_lastOf] at h1
  exact Option.some.inj h1

theorem chainOk_cell (env : Env) (role : Role) (a : FFAction) (start : Cell)
    (n : Node) (h : ChainOk env role a start n) :
    nodeCell n = start ∨
      (InBounds env (nodeCell n) ∧
        (getCost env role a (nodeCell n).1 (nodeCell n).2).isSome = true) := by
  obtain ⟨l, hp, hsteps, _⟩ := h
  cases l with
  | nil =>
    left
    have := chainOk_last start n [] hp
    simpa [lastOf] using this.symm
  | cons u l' =>
    right
    have hlast := chainOk_last start n (u :: l') hp
    have hmem : lastOf start (u :: l') ∈ u :: l' := lastOf_mem start u l'
    rw [hlast] at hmem
    exact stepsOk_mem env role a start (u :: l') hsteps (nodeCell n) hmem

theorem chainOk_extend (env : Env) (role : Role) (a : FFAction) (start : Cell)
    (curr : Node) (u : Cell) (s : ℕ)
    (h : ChainOk env role a start curr)
    (hadj : Adjacent (nodeCell curr) u) (hinb : InBounds env u)
    (hcost : getCost env role a u.1 u.2 = some s) :
    ChainOk env role a start
      ⟨u.1, u.2, curr.cost + s, curr.trail ++ [nodeCell curr]⟩ := by
  obtain ⟨l, hp, hsteps, hc⟩ := h
  refine ⟨l ++ [u], ?_, ?_, ?_⟩
  · show (curr.trail ++ [nodeCell curr]) ++ [(u.1, u.2)] = start :: (l ++ [u])
    have hu : ((u.1, u.2) : Cell) = u := rfl
    rw [hu]
    have : (curr.trail ++ [nodeCell curr]) ++ [u] = nodePath curr ++ [u] := rfl
    rw [this, hp, List.cons_append]
  · rw [stepsOk_snoc]
    refine ⟨hsteps, ?_, hinb, by simp [hcost]⟩
    rwa [chainOk_last start curr l hp]
  · rw [tailCost_snoc, hc, hcost]
    rfl

/-! ## Neighbor expansion lemmas -/

theorem pushNeighbors_mem (env : Env) (role : Role) (a : FFAction)
    (visited : List (Cell × ℕ)) (curr : Node) (n' : Node)
    (h : n' ∈ pushNeighbors env role a visited curr) :
    ∃ d ∈ dirs, ∃ s : ℕ,
      InBounds env (curr.x + d.1, curr.y + d.2) ∧
      getCost env role a (curr.x + d.1) (curr.y + d.2) = some s ∧
      n' = ⟨curr.x + d.1, curr.y + d.2, curr.cost + s,
        curr.trail ++ [nodeCell curr]⟩ ∧
      (vlookup visited (curr.x + d.1, curr.y + d.2) = none ∨
        ∃ v, vlookup visited (curr.x + d.1, curr.y + d.2) = some v ∧
          curr.cost + s < v) := by
  unfold pushNeighbors at h
  rw [List.mem_filterMap] at h
  obtain ⟨d, hd, hf⟩ := h
  refine ⟨d, hd, ?_⟩
  simp only [] at hf
  by_cases hb : 0 ≤ curr.x + d.1 ∧ curr.x + d.1 < (env.width : ℤ) ∧
      0 ≤ curr.y + d.2 ∧ curr.y + d.2 < (env.height : ℤ)
  case neg => rw [if_neg hb] at hf; exact absurd hf (by simp)
  rw [if_pos hb] at hf
  rcases hc : getCost env role a (curr.x + d.1) (curr.y + d.2) with _ | s
  · rw [hc] at hf
    exact absurd hf (by simp)
  · rw [hc, Option.some_bind] at hf
    split at hf
    · rename_i hall
      refine ⟨s, hb, rfl, (Option.some.inj hf).symm, ?_⟩
      rcases hvl : vlookup visited (curr.x + d.1, curr.y + d.2) with _ | v
      · exact Or.inl rfl
      · rw [hvl, Option.all_some] at hall
        exact Or.inr ⟨v, rfl, by simpa using hall⟩
    · exact absurd hf (by simp)

theorem pushNeighbors_cover (env : Env) (role : Role) (a : FFAction)
    (visited : List (Cell × ℕ)) (curr : Node) (d : ℤ × ℤ) (hd : d ∈ dirs)
    (s : ℕ)
    (hinb : InBounds env (curr.x + d.1, curr.y + d.2))
    (hc : getCost env role a (curr.x + d.1) (curr.y + d.2) = some s) :
    (∃ v, vlookup visited (curr.x + d.1, curr.y + d.2) = some v ∧
      v ≤ curr.cost + s) ∨
    (⟨curr.x + d.1, curr.y + d.2, curr.cost + s,
      curr.trail ++ [nodeCell curr]⟩ : Node) ∈
      pushNeighbors env role a visited curr := by
  have hb : 0 ≤ curr.x + d.1 ∧ curr.x + d.1 < (env.width : ℤ) ∧
      0 ≤ curr.y + d.2 ∧ curr.y + d.2 < (env.height : ℤ) := hinb
  rcases hvl : vlookup visited (curr.x + d.1, curr.y + d.2) with _ | v
  · right
    unfold pushNeighbors
    rw [List.mem_filterMap]
    refine ⟨d, hd, ?_⟩
    simp only []
    rw [if_pos hb, hc, Option.some_bind, hvl]
    rfl
  · by_cases hle : v ≤ curr.cost + s
    · exact Or.inl ⟨v, rfl, hle⟩
    · right
      unfold pushNeighbors
      rw [List.mem_filterMap]
      refine ⟨d, hd, ?_⟩
      simp only []
      rw [if_pos hb, hc, Option.some_bind, hvl, Option.all_some,
        if_pos (decide_eq_true (show curr.cost + s < v by omega))]
      rfl

theorem pushNeighbors_length (env : Env) (role : Role) (a : FFAction)
    (visited : List (Cell × ℕ)) (curr : Node) :
    (pushNeighbors env role a visited curr).length ≤ 4 := by
  have h := List.length_filterMap_le
    (fun d : ℤ × ℤ =>
      let nx := curr.x + d.1
      let ny := curr.y + d.2
      if 0 ≤ nx ∧ nx < (env.width : ℤ) ∧ 0 ≤ ny ∧ ny < (env.height : ℤ) then
        (getCost env role a nx ny).bind fun stepCost =>
          if (vlookup visited (nx, ny)).all (fun v => curr.cost + stepCost < v) then
            some (⟨nx, ny, curr.cost + stepCost,
              curr.trail ++ [(curr.x, curr.y)]⟩ : Node)
          else none
      else none) dirs
  exact h

theorem adjacent_dir (curr : Node) (d : ℤ × ℤ) (hd : d ∈ dirs) :
    Adjacent (nodeCell curr) (curr.x + d.1, curr.y + d.2) :=
  ⟨d, hd, rfl⟩

/-! ## Invariant preservation -/

theorem searchInv_perm (env : Env) (role : Role) (a : FFAction) (targets : List Cell)
    (start : Cell) (openSet openSet' : List Node) (visited : List (Cell × ℕ))
    (hperm : openSet.Perm openSet')
    (hInv : SearchInv env role a targets start openSet visited) :
    SearchInv env role a targets start openSet' visited := by
  refine ⟨?_, ?_, ?_, hInv.noGoalVis, ?_, hInv.keysNodup, hInv.keysDom⟩
  · intro n hn
    exact hInv.chains n (hperm.symm.subset hn)
  · intro c v hv n hn
    exact hInv.visLe c v hv n (hperm.symm.subset hn)
  · intro c v hv d hd hinb s hs
    rcases hInv.frontier c v hv d hd hinb s hs with h | ⟨n, hn, hcell, hcost⟩
    · exact Or.inl h
    · exact Or.inr ⟨n, hperm.subset hn, hcell, hcost⟩
  · rcases hInv.startVis with ⟨hv, ho⟩ | h
    · subst ho
      left
      refine ⟨hv, ?_⟩
      symm
      rwa [← List.singleton_perm]
    · exact Or.inr h

theorem keys_length_le (env : Env) (start : Cell) (visited : List (Cell × ℕ))
    (hnodup : (visited.map Prod.fst).Nodup)
    (hdom : ∀ p ∈ visited, InBounds env p.1 ∨ p.1 = start) :
    visited.length ≤ env.width * env.height + 1 := by
  classical
  have hlen : (visited.map Prod.fst).length = visited.length := by simp
  have hsub : (visited.map Prod.fst).toFinset ⊆
      ((Finset.Icc (0 : ℤ) ((env.width : ℤ) - 1)) ×ˢ
        (Finset.Icc (0 : ℤ) ((env.height : ℤ) - 1))) ∪ {start} := by
    intro c hc
    rw [List.mem_toFinset] at hc
    obtain ⟨p, hp, rfl⟩ := List.mem_map.mp hc
    rcases hdom p hp with hinb | heq
    · apply Finset.mem_union_left
      rw [Finset.mem_product, Finset.mem_Icc, Finset.mem_Icc]
      obtain ⟨h1, h2, h3, h4⟩ := hinb
      omega
    · apply Finset.mem_union_right
      simp [heq]
  have hcard : (visited.map Prod.fst).toFinset.card = (visited.map Prod.fst).length :=
    List.toFinset_card_of_nodup hnodup
  have hle := Finset.card_le_card hsub
  rw [hcard, hlen] at hle
  have hbound : (((Finset.Icc (0 : ℤ) ((env.width : ℤ) - 1)) ×ˢ
      (Finset.Icc (0 : ℤ) ((env.height : ℤ) - 1))) ∪
        ({start} : Finset Cell)).card ≤ env.width * env.height + 1 := by
    refine le_trans (Finset.card_union_le _ _) ?_
    rw [Finset.card_product, Finset.card_singleton]
    have h1 : (Finset.Icc (0 : ℤ) ((env.width : ℤ) - 1)).card = env.width := by
      rw [Int.card_Icc]
      omega
    have h2 : (Finset.Icc (0 : ℤ) ((env.height : ℤ) - 1)).card = env.height := by
      rw [Int.card_Icc]
      omega
    rw [h1, h2]
  omega

theorem searchInv_skip (env : Env) (role : Role) (a : FFAction) (targets : List Cell)
    (start : Cell) (curr : Node) (rest : List Node)
    (visited : List (Cell × ℕ)) (v : ℕ)
    (hInv : SearchInv env role a targets start (curr :: rest) visited)
    (hv : vlookup visited (nodeCell curr) = some v) (hle : v ≤ curr.cost) :
    SearchInv env role a targets start rest visited := by
  refine ⟨?_, ?_, ?_, hInv.noGoalVis, ?_, hInv.keysNodup, hInv.keysDom⟩
  · exact fun n hn => hInv.chains n (List.mem_cons_of_mem curr hn)
  · exact fun c v' hv' n hn => hInv.visLe c v' hv' n (List.mem_cons_of_mem curr hn)
  · intro c v₀ hv₀ d hd hinb s hs
    rcases hInv.frontier c v₀ hv₀ d hd hinb s hs with h | ⟨n, hn, hcell, hcost⟩
    · exact Or.inl h
    · rcases List.mem_cons.mp hn with rfl | hn
      · left
        refine ⟨v, ?_, ?_⟩
        · rw [← hcell]
          exact hv
        · omega
      · exact Or.inr ⟨n, hn, hcell, hcost⟩
  · rcases hInv.startVis with ⟨hemp, _⟩ | h
    · rw [hemp, vlookup_nil] at hv
      exact absurd hv (by simp)
    · exact Or.inr h

theorem searchInv_visit (env : Env) (role : Role) (a : FFAction) (targets : List Cell)
    (start : Cell) (curr : Node) (rest : List Node) (visited : List (Cell × ℕ))
    (hInv : SearchInv env role a targets start (curr :: rest) visited)
    (hfresh : vlookup visited (nodeCell curr) = none)
    (hmin : ∀ m ∈ rest, curr.cost ≤ m.cost)
    (hnotgoal : nodeCell curr ∉ targets) :
    SearchInv env role a targets start
      (rest ++ pushNeighbors env role a (vset visited (nodeCell curr) curr.cost) curr)
      (vset visited (nodeCell curr) curr.cost) := by
  have hset : vset visited (nodeCell curr) curr.cost =
      visited ++ [(nodeCell curr, curr.cost)] := vset_fresh _ _ _ hfresh
  set visited' := vset visited (nodeCell curr) curr.cost with hv'
  have hlook_self : vlookup visited' (nodeCell curr) = some curr.cost := by
    rw [hset]
    exact vlookup_snoc_self _ _ _ hfresh
  have hlook_ne : ∀ c, c ≠ nodeCell curr → vlookup visited' c = vlookup visited c := by
    intro c hc
    rw [hset]
    exact vlookup_snoc_ne _ _ _ _ (Ne.symm hc)
  have hcases : ∀ c v, vlookup visited' c = some v →
      (c = nodeCell curr ∧ v = curr.cost) ∨
      (c ≠ nodeCell curr ∧ vlookup visited c = some v) := by
    intro c v hv
    by_cases hc : c = nodeCell curr
    · subst hc
      rw [hlook_self] at hv
      exact Or.inl ⟨rfl, (Option.some.inj hv).symm⟩
    · exact Or.inr ⟨hc, by rw [← hlook_ne c hc]; exact hv⟩
  have hchain_curr : ChainOk env role a start curr :=
    hInv.chains curr (List.mem_cons_self curr rest)
  refine ⟨?_, ?_, ?_, ?_, ?_, ?_, ?_⟩
  · -- chains
    intro n hn
    rcases List.mem_append.mp hn with hn | hn
    · exact hInv.chains n (List.mem_cons_of_mem curr hn)
    · obtain ⟨d, hd, s, hinb, hc, hn_eq, _⟩ :=
        pushNeighbors_mem env role a visited' curr n hn
      rw [hn_eq]
      exact chainOk_extend env role a start curr _ s hchain_curr
        (adjacent_dir curr d hd) hinb hc
  · -- visLe
    intro c v hv n hn
    rcases hcases c v hv with ⟨hc, hveq⟩ | ⟨hne, hold⟩
    · subst hveq
      rcases List.mem_append.mp hn with hn | hn
      · exact hmin n hn
      · obtain ⟨d, hd, s, _, _, hn_eq, _⟩ :=
          pushNeighbors_mem env role a visited' curr n hn
        rw [hn_eq]
        exact Nat.le_add_right _ _
    · have hv_curr : v ≤ curr.cost :=
        hInv.visLe c v hold curr (List.mem_cons_self curr rest)
      rcases List.mem_append.mp hn with hn | hn
      · exact hInv.visLe c v hold n (List.mem_cons_of_mem curr hn)
      · obtain ⟨d, hd, s, _, _, hn_eq, _⟩ :=
          pushNeighbors_mem env role a visited' curr n hn
        rw [hn_eq]
        exact le_trans hv_curr (Nat.le_add_right _ _)
  · -- frontier
    intro c v hv d hd hinb s hs
    rcases hcases c v hv with ⟨hc, hveq⟩ | ⟨hne, hold⟩
    · subst hveq
      subst hc
      rcases pushNeighbors_cover env role a visited' curr d hd s hinb hs with
        ⟨v', hv', hle⟩ | hpush
      · exact Or.inl ⟨v', hv', hle⟩
      · exact Or.inr ⟨_, List.mem_append_right rest hpush, rfl, le_refl _⟩
    · rcases hInv.frontier c v hold d hd hinb s hs with ⟨v', hv', hle⟩ |
        ⟨n, hn, hcell, hcost⟩
      · by_cases hu : (c.1 + d.1, c.2 + d.2) = nodeCell curr
        · rw [hu, hfresh] at hv'
          exact absurd hv' (by simp)
        · exact Or.inl ⟨v', by rw [hlook_ne _ hu]; exact hv', hle⟩
      · rcases List.mem_cons.mp hn with heq | hn
        · left
          rw [heq] at hcell hcost
          exact ⟨curr.cost, by rw [← hcell]; exact hlook_self, hcost⟩
        · exact Or.inr ⟨n, List.mem_append_left _ hn, hcell, hcost⟩
  · -- noGoalVis
    intro g hg
    have hne : g ≠ nodeCell curr := fun h => hnotgoal (h ▸ hg)
    rw [hlook_ne g hne]
    exact hInv.noGoalVis g hg
  · -- startVis
    rcases hInv.startVis with ⟨hemp, hop⟩ | hstart
    · right
      injection hop with h1 h2
      subst h1
      simpa [nodeCell] using hlook_self
    · right
      have hne : start ≠ nodeCell curr := by
        intro h
        rw [h, hfresh] at hstart
        exact absurd hstart (by simp)
      rw [hlook_ne start hne]
      exact hstart
  · -- keysNodup
    rw [hset, List.map_append, List.nodup_append]
    refine ⟨hInv.keysNodup, by simp, ?_⟩
    intro k hk hk'
    simp only [List.map_cons, List.map_nil, List.mem_singleton] at hk'
    subst hk'
    obtain ⟨p, hp, hpk⟩ := List.mem_map.mp hk
    exact vlookup_none_keys visited (nodeCell curr) hfresh p hp hpk
  · -- keysDom
    intro p hp
    rw [hset] at hp
    rcases List.mem_append.mp hp with hp | hp
    · exact hInv.keysDom p hp
    · rw [List.mem_singleton] at hp
      subst hp
      rcases chainOk_cell env role a start curr hchain_curr with h | ⟨hinb, _⟩
      · exact Or.inr h
      · exact Or.inl hinb

/-! ## The frontier-crossing argument and the two main loop theorems -/

theorem frontier_walk (env : Env) (role : Role) (a : FFAction) (targets : List Cell)
    (start : Cell) (openSet : List Node) (visited : List (Cell × ℕ))
    (hInv : SearchInv env role a targets start openSet visited) :
    ∀ (l : List Cell) (c : Cell) (acc v : ℕ),
      stepsOk env role a c l →
      lastOf c l ∈ targets →
      vlookup visited c = some v → v ≤ acc →
      ∃ n ∈ openSet, n.cost ≤ acc + tailCost env role a l := by
  intro l
  induction l with
  | nil =>
    intro c acc v _ hlast hv _
    rw [hInv.noGoalVis c hlast] at hv
    exact absurd hv (by simp)
  | cons u l ih =>
    intro c acc v hsteps hlast hv hvacc
    obtain ⟨hadj, hinb, hcost, hrest⟩ := hsteps
    obtain ⟨s, hs⟩ := Option.isSome_iff_exists.mp hcost
    obtain ⟨d, hd, hu⟩ := hadj
    subst hu
    rcases hInv.frontier c v hv d hd hinb s hs with ⟨v', hv', hle⟩ | ⟨n, hn, _, hle⟩
    · have hlast' : lastOf (c.1 + d.1, c.2 + d.2) l ∈ targets := hlast
      obtain ⟨n, hn, hcost_n⟩ :=
        ih (c.1 + d.1, c.2 + d.2) (acc + s) v' hrest hlast' hv' (by omega)
      refine ⟨n, hn, ?_⟩
      rw [tailCost_cons, hs]
      simp only [Option.getD_some]
      omega
    · refine ⟨n, hn, ?_⟩
      rw [tailCost_cons, hs]
      simp only [Option.getD_some]
      omega

theorem route_cut (env : Env) (role : Role) (a : FFAction) (targets : List Cell)
    (start : Cell) (openSet : List Node) (visited : List (Cell × ℕ))
    (hInv : SearchInv env role a targets start openSet visited)
    (p : List Cell) (hp : IsRouteTo env role a start targets p) :
    ∃ n ∈ openSet, n.cost ≤ routeCost env role a p := by
  obtain ⟨l, g, rfl, hsteps, hlast, hg⟩ := hp
  have hlg : lastOf start l = g := by
    have h := getLast?_eq_lastOf start l
    rw [h] at hlast
    exact Option.some.inj hlast
  have hlast' : lastOf start l ∈ targets := hlg ▸ hg
  rcases hInv.startVis with ⟨_, hop⟩ | hstart
  · rw [hop]
    exact ⟨⟨start.1, start.2, 0, []⟩, List.mem_singleton_self _, Nat.zero_le _⟩
  · obtain ⟨n, hn, hc⟩ := frontier_walk env role a targets start openSet visited hInv
      l start 0 0 hsteps hlast' hstart (le_refl 0)
    exact ⟨n, hn, by simpa using hc⟩

theorem dijkstra_sound (env : Env) (role : Role) (a : FFAction) (targets : List Cell)
    (start : Cell) :
    ∀ (fuel : ℕ) (openSet : List Node) (visited : List (Cell × ℕ)),
      SearchInv env role a targets start openSet visited →
      ∀ n, dijkstra env role a targets fuel openSet visited = some n →
        ChainOk env role a start n ∧ nodeCell n ∈ targets ∧
        ∀ p, IsRouteTo env role a start targets p →
          n.cost ≤ routeCost env role a p := by
  intro fuel
  induction fuel with
  | zero =>
    intro openSet visited _ n h
    exact absurd h (by simp [dijkstra])
  | succ fuel ih =>
    intro openSet visited hInv n h
    cases hsort : sortByCost openSet with
    | nil =>
      rw [dijkstra_stop env role a targets fuel openSet visited hsort] at h
      exact absurd h (by simp)
    | cons curr rest =>
      have hperm : openSet.Perm (curr :: rest) := by
        have hp := sortByCost_perm openSet
        rw [hsort] at hp
        exact hp.symm
      have hInv' : SearchInv env role a targets start (curr :: rest) visited :=
        searchInv_perm env role a targets start openSet (curr :: rest) visited hperm hInv
      have hmin : ∀ m ∈ rest, curr.cost ≤ m.cost := by
        have hsorted := sortByCost_sorted openSet
        rw [hsort, List.pairwise_cons] at hsorted
        exact hsorted.1
      rcases hvl : vlookup visited (nodeCell curr) with _ | v
      · by_cases ht : nodeCell curr ∈ targets
        · rw [dijkstra_found env role a targets fuel openSet visited curr rest
            hsort hvl ht] at h
          obtain rfl := Option.some.inj h
          refine ⟨hInv'.chains curr (List.mem_cons_self _ _), ht, ?_⟩
          intro p hp
          obtain ⟨m, hm, hmc⟩ :=
            route_cut env role a targets start (curr :: rest) visited hInv' p hp
          rcases List.mem_cons.mp hm with heq | hm
          · rw [← heq]
            exact hmc
          · exact le_trans (hmin m hm) hmc
        · rw [dijkstra_visit env role a targets fuel openSet visited curr rest
            hsort hvl ht] at h
          exact ih _ _
            (searchInv_visit env role a targets start curr rest visited hInv' hvl hmin ht)
            n h
      · have hle : v ≤ curr.cost :=
          hInv'.visLe (nodeCell curr) v hvl curr (List.mem_cons_self _ _)
        rw [dijkstra_skip env role a targets fuel openSet visited curr rest v
          hsort hvl hle] at h
        exact ih _ _
          (searchInv_skip env role a targets start curr rest visited v hInv' hvl hle)
          n h

theorem dijkstra_complete (env : Env) (role : Role) (a : FFAction) (targets : List Cell)
    (start : Cell) :
    ∀ (fuel : ℕ) (openSet : List Node) (visited : List (Cell × ℕ)),
      SearchInv env role a targets start openSet visited →
      searchMeasure env openSet visited < fuel →
      (∃ p, IsRouteTo env role a start targets p) →
      ∃ n, dijkstra env role a targets fuel openSet visited = some n := by
  intro fuel
  induction fuel with
  | zero =>
    intro _ _ _ hm _
    omega
  | succ fuel ih =>
    intro openSet visited hInv hm hex
    obtain ⟨p, hp⟩ := hex
    obtain ⟨m0, hm0, _⟩ := route_cut env role a targets start openSet visited hInv p hp
    cases hsort : sortByCost openSet with
    | nil =>
      exfalso
      have hperm := sortByCost_perm openSet
      rw [hsort] at hperm
      rw [hperm.symm.eq_nil] at hm0
      exact absurd hm0 (by simp)
    | cons curr rest =>
      have hperm : openSet.Perm (curr :: rest) := by
        have hq := sortByCost_perm openSet
        rw [hsort] at hq
        exact hq.symm
      have hInv' : SearchInv env role a targets start (curr :: rest) visited :=
        searchInv_perm env role a targets start openSet (curr :: rest) visited hperm hInv
      have hmin : ∀ m ∈ rest, curr.cost ≤ m.cost := by
        have hsorted := sortByCost_sorted openSet
        rw [hsort, List.pairwise_cons] at hsorted
        exact hsorted.1
      have hlen : openSet.length = rest.length + 1 := by
        have := hperm.length_eq
        simpa using this
      rcases hvl : vlookup visited (nodeCell curr) with _ | v
      · by_cases ht : nodeCell curr ∈ targets
        · exact ⟨curr,
            dijkstra_found env role a targets fuel openSet visited curr rest hsort hvl ht⟩
        · rw [dijkstra_visit env role a targets fuel openSet visited curr rest
            hsort hvl ht]
          have hInvNew :=
            searchInv_visit env role a targets start curr rest visited hInv' hvl hmin ht
          apply ih _ _ hInvNew ?_ ⟨p, hp⟩
          have hklen : (vset visited (nodeCell curr) curr.cost).length =
              visited.length + 1 := by
            rw [vset_fresh _ _ _ hvl, List.length_append]
            rfl
          have hkb : (vset visited (nodeCell curr) curr.cost).length ≤
              env.width * env.height + 1 :=
            keys_length_le env start _ hInvNew.keysNodup hInvNew.keysDom
          have hpl : (pushNeighbors env role a
              (vset visited (nodeCell curr) curr.cost) curr).length ≤ 4 :=
            pushNeighbors_length env role a _ curr
          unfold searchMeasure at hm ⊢
          rw [List.length_append]
          omega
      · have hle : v ≤ curr.cost :=
          hInv'.visLe (nodeCell curr) v hvl curr (List.mem_cons_self _ _)
        rw [dijkstra_skip env role a targets fuel openSet visited curr rest v
          hsort hvl hle]
        apply ih _ _
          (searchInv_skip env role a targets start curr rest visited v hInv' hvl hle)
          ?_ ⟨p, hp⟩
        unfold searchMeasure at hm ⊢
        omega

theorem searchInv_init (env : Env) (role : Role) (a : FFAction) (targets : List Cell)
    (sx sy : ℤ) :
    SearchInv env role a targets (sx, sy) [⟨sx, sy, 0, []⟩] [] := by
  refine ⟨?_, ?_, ?_, ?_, ?_, ?_, ?_⟩
  · intro n hn
    rw [List.mem_singleton] at hn
    subst hn
    exact chainOk_root env role a sx sy
  · intro c v hv
    rw [vlookup_nil] at hv
    exact absurd hv (by simp)
  · intro c v hv
    rw [vlookup_nil] at hv
    exact absurd hv (by simp)
  · intro g _
    exact vlookup_nil g
  · exact Or.inl ⟨rfl, rfl⟩
  · simp
  · simp

/-! ## Planner correctness theorems -/

/-- C1: a non-empty route returned by the planner is itself a valid path to
the goal set, and its total cost (sum of destination-cell costs, start
excluded) is at most the cost of every path from the start to any goal cell
— together: it attains the minimum cost over all such paths. -/
theorem C1_route_cost_minimal (env : Env) (role : Role) (a : FFAction) (sx sy : ℤ)
    (hne : findPath env role a sx sy ≠ []) :
    IsRouteTo env role a (sx, sy) (goalSet env role a) (findPath env role a sx sy) ∧
    ∀ p, IsRouteTo env role a (sx, sy) (goalSet env role a) p →
      routeCost env role a (findPath env role a sx sy) ≤ routeCost env role a p := by
  rcases hd : dijkstra env role a (goalSet env role a) (searchFuel env)
      [⟨sx, sy, 0, []⟩] [] with _ | n
  · exfalso
    apply hne
    unfold findPath
    rw [hd]
  · obtain ⟨⟨l, hp, hsteps, hcost⟩, htgt, hopt⟩ :=
      dijkstra_sound env role a (goalSet env role a) (sx, sy) (searchFuel env)
        [⟨sx, sy, 0, []⟩] [] (searchInv_init env role a (goalSet env role a) sx sy) n hd
    have hroute : findPath env role a sx sy = nodePath n := by
      unfold findPath
      rw [hd]
      rfl
    have hlastq : (((sx, sy) : Cell) :: l).getLast? = some (nodeCell n) := by
      rw [getLast?_eq_lastOf, chainOk_last (sx, sy) n l hp]
    constructor
    · exact ⟨l, nodeCell n, by rw [hroute, hp], hsteps, hlastq, htgt⟩
    · intro p hpp
      have hrc : routeCost env role a (findPath env role a sx sy) = n.cost := by
        rw [hroute, hp]
        show tailCost env role a l = n.cost
        exact hcost
      rw [hrc]
      exact hopt p hpp

/-- Witness for C1: on an open 3 by 3 grid the returned route is optimal. -/
theorem C1_route_cost_minimal_witness :
    findPath env3 Role.civilian FFAction.evacuate 1 1 ≠ [] ∧
    (IsRouteTo env3 Role.civilian FFAction.evacuate (1, 1)
        (goalSet env3 Role.civilian FFAction.evacuate)
        (findPath env3 Role.civilian FFAction.evacuate 1 1) ∧
      ∀ p, IsRouteTo env3 Role.civilian FFAction.evacuate (1, 1)
          (goalSet env3 Role.civilian FFAction.evacuate) p →
        routeCost env3 Role.civilian FFAction.evacuate
            (findPath env3 Role.civilian FFAction.evacuate 1 1) ≤
          routeCost env3 Role.civilian FFAction.evacuate p) :=
  ⟨by decide, C1_route_cost_minimal env3 Role.civilian FFAction.evacuate 1 1 (by decide)⟩

/-- C2: a non-empty route starts at the occupant's cell and ends at a cell
of the goal set; an empty route means no path (unit steps through in-bounds
passable cells) from the occupant's cell to any goal cell exists — in
particular no such path all of whose cells, the start included, are
passable. -/
theorem C2_endpoints_and_completeness (env : Env) (role : Role) (a : FFAction)
    (sx sy : ℤ) :
    (findPath env role a sx sy ≠ [] →
      (findPath env role a sx sy).head? = some (sx, sy) ∧
      ∃ g, (findPath env role a sx sy).getLast? = some g ∧
        g ∈ goalSet env role a) ∧
    (findPath env role a sx sy = [] →
      ∀ p, ¬ IsRouteTo env role a (sx, sy) (goalSet env role a) p) := by
  constructor
  · intro hne
    rcases hd : dijkstra env role a (goalSet env role a) (searchFuel env)
        [⟨sx, sy, 0, []⟩] [] with _ | n
    · exfalso
      apply hne
      unfold findPath
      rw [hd]
    · obtain ⟨⟨l, hp, _, _⟩, htgt, _⟩ :=
        dijkstra_sound env role a (goalSet env role a) (sx, sy) (searchFuel env)
          [⟨sx, sy, 0, []⟩] [] (searchInv_init env role a (goalSet env role a) sx sy) n hd
      have hroute : findPath env role a sx sy = nodePath n := by
        unfold findPath
        rw [hd]
        rfl
      constructor
      · rw [hroute, hp]
        rfl
      · refine ⟨nodeCell n, ?_, htgt⟩
        rw [hroute, hp, getLast?_eq_lastOf, chainOk_last (sx, sy) n l hp]
  · intro hemp p hpp
    have hmeas : searchMeasure env [(⟨sx, sy, 0, []⟩ : Node)] [] < searchFuel env := by
      unfold searchMeasure searchFuel
      simp
    obtain ⟨n, hn⟩ := dijkstra_complete env role a (goalSet env role a) (sx, sy)
      (searchFuel env) [⟨sx, sy, 0, []⟩] []
      (searchInv_init env role a (goalSet env role a) sx sy) hmeas ⟨p, hpp⟩
    have hne : findPath env role a sx sy = n.trail ++ [(n.x, n.y)] := by
      unfold findPath
      rw [hn]
    rw [hne] at hemp
    simp at hemp

/-- Witness for C2: on the open 3 by 3 grid the route runs from the
occupant to the exit; on the grid whose start cell is sealed off by walls
the planner proves no path exists. -/
theorem C2_endpoints_and_completeness_witness :
    ((findPath env3 Role.civilian FFAction.evacuate 1 1).head? = some (1, 1) ∧
      ∃ g, (findPath env3 Role.civilian FFAction.evacuate 1 1).getLast? = some g ∧
        g ∈ goalSet env3 Role.civilian FFAction.evacuate) ∧
    (∀ p, ¬ IsRouteTo env4sealed Role.civilian FFAction.evacuate (1, 1)
        (goalSet env4sealed Role.civilian FFAction.evacuate) p) :=
  ⟨(C2_endpoints_and_completeness env3 Role.civilian FFAction.evacuate 1 1).1
      (by decide),
   (C2_endpoints_and_completeness env4sealed Role.civilian FFAction.evacuate 1 1).2
      (by decide)⟩

theorem adjacent_natAbs (c u : Cell) (h : Adjacent c u) :
    (u.1 - c.1).natAbs + (u.2 - c.2).natAbs = 1 := by
  obtain ⟨d, hd, rfl⟩ := h
  simp only [dirs, List.mem_cons, List.mem_singleton, List.not_mem_nil, or_false] at hd
  rcases hd with rfl | rfl | rfl | rfl <;> simp

theorem stepsOk_chain (env : Env) (role : Role) (a : FFAction) (c : Cell)
    (l : List Cell) (h : stepsOk env role a c l) :
    List.Chain (fun w u : Cell => (u.1 - w.1).natAbs + (u.2 - w.2).natAbs = 1) c l := by
  induction l generalizing c with
  | nil => exact List.Chain.nil
  | cons u l ih =>
    obtain ⟨hadj, _, _, hrest⟩ := h
    exact List.Chain.cons (adjacent_natAbs c u hadj) (ih u hrest)

theorem isWall_false_of_cost (env : Env) (role : Role) (a : FFAction) (x y : ℤ)
    (h : (getCost env role a x y).isSome = true) : isWall env x y = false := by
  by_contra hw
  have hw' : isWall env x y = true := by simpa using hw
  unfold getCost at h
  rw [if_pos hw'] at h
  simp at h

/-- C10: every pair of consecutive cells of a returned route differs by
exactly one in exactly one coordinate, and every cell after the first is
inside the grid and is not a wall (only the occupant's own reported first
cell escapes these checks). -/
theorem C10_route_steps_valid (env : Env) (role : Role) (a : FFAction) (sx sy : ℤ)
    (hne : findPath env role a sx sy ≠ []) :
    List.Chain' (fun w u : Cell => (u.1 - w.1).natAbs + (u.2 - w.2).natAbs = 1)
      (findPath env role a sx sy) ∧
    ∀ u ∈ (findPath env role a sx sy).tail,
      InBounds env u ∧ isWall env u.1 u.2 = false := by
  rcases hd : dijkstra env role a (goalSet env role a) (searchFuel env)
      [⟨sx, sy, 0, []⟩] [] with _ | n
  · exfalso
    apply hne
    unfold findPath
    rw [hd]
  · obtain ⟨⟨l, hp, hsteps, _⟩, _, _⟩ :=
      dijkstra_sound env role a (goalSet env role a) (sx, sy) (searchFuel env)
        [⟨sx, sy, 0, []⟩] [] (searchInv_init env role a (goalSet env role a) sx sy) n hd
    have hroute : findPath env role a sx sy = ((sx, sy) : Cell) :: l := by
      unfold findPath
      rw [hd]
      show nodePath n = _
      exact hp
    rw [hroute]
    constructor
    · exact stepsOk_chain env role a (sx, sy) l hsteps
    · intro u hu
      have hm := stepsOk_mem env role a (sx, sy) l hsteps u hu
      exact ⟨hm.1, isWall_false_of_cost env role a u.1 u.2 hm.2⟩

/-- Witness for C10 on the open 3 by 3 grid. -/
theorem C10_route_steps_valid_witness :
    List.Chain' (fun w u : Cell => (u.1 - w.1).natAbs + (u.2 - w.2).natAbs = 1)
      (findPath env3 Role.civilian FFAction.evacuate 1 1) ∧
    ∀ u ∈ (findPath env3 Role.civilian FFAction.evacuate 1 1).tail,
      InBounds env3 u ∧ isWall env3 u.1 u.2 = false :=
  C10_route_steps_valid env3 Role.civilian FFAction.evacuate 1 1 (by decide)

/-- C9 counterexample: the claim says an occupant stored inside a wall cell
gets an empty or single-cell route, but the search never applies the wall
check to the start cell, so a civilian standing in the wall `(1, 1)` is
given the genuine two-cell route to the exit. -/
theorem C9_counterexample :
    isWall env3w 1 1 = true ∧
    findPath env3w Role.civilian FFAction.evacuate 1 1 = [(1, 1), (2, 1)] ∧
    ¬(findPath env3w Role.civilian FFAction.evacuate 1 1 = [] ∨
      (findPath env3w Role.civilian FFAction.evacuate 1 1).length ≤ 1) :=
  ⟨by decide, by decide, by decide⟩

/-- C9 (amended): for a floor whose border cells are all walls — true of
every generated floor — an occupant whose stored coordinates are off-grid
receives an empty route, or the degenerate single-cell route when its own
off-grid cell is itself a goal. An occupant stored inside a wall cell is
not covered: the planner treats the start as passable (see the
counterexample). -/
theorem C9_offgrid_empty_or_degenerate (env : Env) (role : Role) (a : FFAction)
    (sx sy : ℤ)
    (hborder : ∀ x y : ℤ,
      (0 ≤ x ∧ x < (env.width : ℤ) ∧ 0 ≤ y ∧ y < (env.height : ℤ)) →
      (x = 0 ∨ x = (env.width : ℤ) - 1 ∨ y = 0 ∨ y = (env.height : ℤ) - 1) →
      isWall env x y = true)
    (hoff : ¬ InBounds env (sx, sy)) :
    findPath env role a sx sy = [] ∨ findPath env role a sx sy = [(sx, sy)] := by
  have hoff' : ¬(0 ≤ sx ∧ sx < (env.width : ℤ) ∧ 0 ≤ sy ∧ sy < (env.height : ℤ)) :=
    hoff
  have hk : searchFuel env = (5 * (env.width * env.height + 1) + 1) + 1 := rfl
  unfold findPath
  rw [hk]
  have hsort1 : sortByCost [(⟨sx, sy, 0, []⟩ : Node)] = [⟨sx, sy, 0, []⟩] := rfl
  have hvl1 : vlookup [] (nodeCell (⟨sx, sy, 0, []⟩ : Node)) = none := rfl
  by_cases ht : nodeCell (⟨sx, sy, 0, []⟩ : Node) ∈ goalSet env role a
  · right
    rw [dijkstra_found env role a (goalSet env role a)
      (5 * (env.width * env.height + 1) + 1) _ _ _ _ hsort1 hvl1 ht]
    rfl
  · left
    rw [dijkstra_visit env role a (goalSet env role a)
      (5 * (env.width * env.height + 1) + 1) _ _ _ _ hsort1 hvl1 ht]
    have hpush : pushNeighbors env role a
        (vset [] (nodeCell (⟨sx, sy, 0, []⟩ : Node)) 0) ⟨sx, sy, 0, []⟩ = [] := by
      unfold pushNeighbors
      rw [List.filterMap_eq_nil_iff]
      intro d hd
      simp only []
      by_cases hb : 0 ≤ sx + d.1 ∧ sx + d.1 < (env.width : ℤ) ∧
          0 ≤ sy + d.2 ∧ sy + d.2 < (env.height : ℤ)
      · rw [if_pos hb]
        have hwall : isWall env (sx + d.1) (sy + d.2) = true := by
          apply hborder _ _ hb
          simp only [dirs, List.mem_cons, List.mem_singleton, List.not_mem_nil,
            or_false] at hd
          rcases hd with rfl | rfl | rfl | rfl <;> (simp only [] at hb ⊢; omega)
        have hcost : getCost env role a (sx + d.1) (sy + d.2) = none := by
          unfold getCost
          rw [if_pos hwall]
        rw [hcost]
        rfl
      · rw [if_neg hb]
    rw [hpush, List.append_nil]
    have hnone : dijkstra env role a (goalSet env role a)
        (5 * (env.width * env.height + 1) + 1) []
        (vset [] (nodeCell (⟨sx, sy, 0, []⟩ : Node)) 0) = none :=
      dijkstra_stop env role a (goalSet env role a)
        (5 * (env.width * env.height + 1)) [] _ rfl
    rw [hnone]

/-- Witness for the amended C9: a civilian reported at `(-3, -3)` on a
bordered 4 by 4 grid gets the empty route. -/
theorem C9_offgrid_empty_or_degenerate_witness :
    findPath env4border Role.civilian FFAction.evacuate (-3) (-3) = [] ∨
    findPath env4border Role.civilian FFAction.evacuate (-3) (-3) = [(-3, -3)] :=
  C9_offgrid_empty_or_degenerate env4border Role.civilian FFAction.evacuate (-3) (-3)
    (by
      intro x y hb he
      obtain ⟨h1, h2, h3, h4⟩ := hb
      have h2' : x < (4 : ℤ) := h2
      have h4' : y < (4 : ℤ) := h4
      interval_cases x <;> interval_cases y <;> revert he <;> decide)
    (by unfold InBounds; decide)

end Evac
